import Mathlib

set_option maxHeartbeats 1000000

/-! Shallow embedding of the content_hash_unzip CLI (src/main.go): a zip
validator, content hasher and extractor.  Paths and file names are Lean
`String`s, byte streams are `List Nat`.  File system I/O and the zip
container decoder are abstracted as explicit inputs; the parts of the
program that live in external modules (dirhash, path.Clean,
module.CheckFilePath, the Unicode fold tables) are modelled from the
specification, as marked on each definition. -/

/-- Errors produced by the program.  Go `error` values built with
`fmt.Errorf` are modelled as tagged constructors carrying the format
arguments; `fileErrorList` and `zipError` mirror the structured error
types `FileErrorList` and `zipError` of src/main.go. -/
inductive GoErr where
  | usageErr : GoErr
  | zipTooLarge (size limit : Int) : GoErr
  | notClean (name : String) : GoErr
  | malformedFilePath (name reason : String) : GoErr
  | collision (p1 p2 : String) : GoErr
  | bothFileAndDir (p : String) : GoErr
  | multipleEntries (p : String) : GoErr
  | totalSizeTooLarge (limit : Int) : GoErr
  | hashMismatch (got expected : String) : GoErr
  | targetNotEmpty (dir : String) : GoErr
  | declaredSizeExceeded (name : String) (declared : Nat) : GoErr
  | noFileMatchedPfx (pfx : String) : GoErr
  | fileErrorList (es : List (String × GoErr)) : GoErr
  | zipError (verb path : String) (e : GoErr) : GoErr

/-- MaxZipFile from src/main.go: `500 << 20` bytes. -/
def MaxZipFile : Int := 500 * 2 ^ 20

/-- CheckedFiles from src/main.go.  `Omitted` and `Invalid` pair a file
path with the error recorded for it (Go `FileError`). -/
structure CheckedFiles where
  Valid : List String := []
  Omitted : List (String × GoErr) := []
  Invalid : List (String × GoErr) := []
  SizeError : Option GoErr := none

/-- CheckedFiles.Err from src/main.go lines 103-111: the size error
dominates, else the aggregate of the invalid entries, else no error. -/
def CheckedFiles.Err (cf : CheckedFiles) : Option GoErr :=
  if cf.SizeError.isSome then cf.SizeError
  else if cf.Invalid.length > 0 then some (GoErr.fileErrorList cf.Invalid)
  else none

/-! Path splitting on the separator, over `List Char`.  `splitSegs` is the
segment decomposition used by Go `strings.Split(s, "/")` and `joinSegs`
its inverse (`strings.Join(segs, "/")`). -/

def splitSegs : List Char → List (List Char)
  | [] => [[]]
  | c :: rest =>
    if c = '/' then [] :: splitSegs rest
    else
      match splitSegs rest with
      | s :: ss => (c :: s) :: ss
      | [] => [[c]]

def joinSegs : List (List Char) → List Char
  | [] => []
  | [s] => s
  | s :: ss => s ++ '/' :: joinSegs ss

/-- Adjacent double separator, as tested by Go `strings.Contains(p, "//")`. -/
def hasDD : List Char → Bool
  | c1 :: c2 :: rest => (c1 = '/' && c2 = '/') || hasDD (c2 :: rest)
  | _ => false

/-- Modelled from the spec: the segment-stack processing of `..` inside
the lexical path cleaner (Go path.Clean, an external collaborator of
src/main.go).  The accumulator is kept in reverse order; a `..` segment
pops the most recent real segment, is dropped at the root of a rooted
path, and piles up at the front of a relative path. -/
def cleanAux (rooted : Bool) : List (List Char) → List (List Char) → List (List Char)
  | [], acc => acc
  | s :: rest, acc =>
    if s = ['.', '.'] then
      match acc with
      | t :: acc' =>
        if t = ['.', '.'] then cleanAux rooted rest (s :: t :: acc')
        else cleanAux rooted rest acc'
      | [] =>
        if rooted then cleanAux rooted rest []
        else cleanAux rooted rest [['.', '.']]
    else cleanAux rooted rest (s :: acc)

/-- Modelled from the spec: the lexical path cleaner used by the
validator (Go path.Clean): drop empty and `.` segments, resolve `..`
segments, return `.` for an empty relative result. -/
def pathCleanL (cs : List Char) : List Char :=
  if cs = [] then ['.']
  else
    let rooted := cs.head? = some '/'
    let segs := (splitSegs cs).filter fun s => !(s.isEmpty || s = ['.'])
    let out := (cleanAux rooted segs []).reverse
    if rooted then '/' :: joinSegs out
    else if out.isEmpty then ['.'] else joinSegs out

def pathClean (s : String) : String := ⟨pathCleanL s.data⟩

/-- Modelled from the spec: Go path.Dir, the parent of a path —
everything up to and including the final separator, cleaned. -/
def pathDirL (cs : List Char) : List Char :=
  pathCleanL ((cs.reverse.dropWhile fun c => c ≠ '/').reverse)

def pathDir (s : String) : String := ⟨pathDirL s.data⟩

/-! The portable file-path validator.  Modelled from the spec: the
portable-path constraints enforced by the external `module.CheckFilePath`
(golang.org/x/mod/module), called from src/main.go line 174. -/

/-- Modelled from the spec: the portable safe character set of the path
validator.  ASCII letters, digits and a fixed list of punctuation are
allowed; the printable-Unicode test applied to non-ASCII runes uses
external Unicode tables and is abstracted here as accepting. -/
def fileNameOK (c : Char) : Bool :=
  if c.toNat < 128 then
    ('0' ≤ c && c ≤ '9') || ('a' ≤ c && c ≤ 'z') || ('A' ≤ c && c ≤ 'Z') ||
      ['!', '#', '$', '%', '&', '(', ')', '+', ',', '-', '.', '=', '@',
        '[', ']', '^', '_', Char.ofNat 123, Char.ofNat 125, '~', ' '].contains c
  else true

/-- Modelled from the spec: path elements reserved by Windows and
rejected by the validator. -/
def badWindowsNames : List (List Char) :=
  ["CON".data, "PRN".data, "AUX".data, "NUL".data,
   "COM1".data, "COM2".data, "COM3".data, "COM4".data, "COM5".data,
   "COM6".data, "COM7".data, "COM8".data, "COM9".data,
   "LPT1".data, "LPT2".data, "LPT3".data, "LPT4".data, "LPT5".data,
   "LPT6".data, "LPT7".data, "LPT8".data, "LPT9".data]

/-- ASCII lower-casing of one character, used for the case-insensitive
comparison against the reserved Windows names. -/
def asciiLower (c : Char) : Char :=
  if 'A' ≤ c && c ≤ 'Z' then Char.ofNat (c.toNat + 32) else c

/-- Reserved-name test: the element up to its first dot, compared
case-insensitively against the reserved Windows names. -/
def isBadWindowsName (e : List Char) : Bool :=
  badWindowsNames.any fun bad =>
    (e.takeWhile fun c => c ≠ '.').map asciiLower = bad.map asciiLower

/-- Modelled from the spec: validation of one path element, first failure
wins: empty element, all-dots element, trailing dot, character outside
the safe set, reserved Windows name. -/
def checkElem (e : List Char) : Option String :=
  if e.isEmpty then some "empty path element"
  else if e.all fun c => c = '.' then some "invalid path element"
  else if e.getLast? = some '.' then some "trailing dot in path element"
  else if !(e.all fileNameOK) then some "invalid char"
  else if isBadWindowsName e then some "disallowed path element on Windows"
  else none

/-- Modelled from the spec: the portable file-path check
(module.CheckFilePath): non-empty, no double or trailing separator, each
separator-delimited element valid. -/
def checkFilePath (s : String) : Option GoErr :=
  if s.data.isEmpty then some (GoErr.malformedFilePath s "empty string")
  else if hasDD s.data then some (GoErr.malformedFilePath s "double slash")
  else if s.data.getLast? = some '/' then some (GoErr.malformedFilePath s "trailing slash")
  else
    match (splitSegs s.data).findSome? checkElem with
    | some reason => some (GoErr.malformedFilePath s reason)
    | none => none

/-- The per-entry name validation of src/main.go lines 170-177: the name
must equal its cleaned form, then must pass the portable path check. -/
def validateName (name : String) : Option GoErr :=
  if pathClean name ≠ name then some (GoErr.notClean name)
  else checkFilePath name

/-! The collision checker of src/main.go lines 283-318. -/

/-- pathInfo from src/main.go: the original path and kind stored under a
folded key. -/
structure PathInfo where
  path : String
  isDir : Bool
deriving DecidableEq

/-- collisionChecker from src/main.go: a map from folded path to
`PathInfo`, modelled as an association list with most recent insertions
in front (insertion only happens for absent keys). -/
def CollisionChecker := List (String × PathInfo)

/-- Map lookup in the collision registry. -/
def ccFind : CollisionChecker → String → Option PathInfo
  | [], _ => none
  | (k, i) :: rest, f => if k = f then some i else ccFind rest f

/-- Modelled from the spec: strToFold of src/main.go, a canonical form
equal for two strings exactly when they are case-insensitively equal.
ASCII upper-case letters are folded to lower case; folding of non-ASCII
runes uses the external Unicode simple-fold tables and is abstracted
here as the identity. -/
def strToFold (s : String) : String := ⟨s.data.map asciiLower⟩

/-- check from src/main.go lines 295-318, parameterised over the folding
function and an explicit recursion `fuel` (Go recurses on the parent
path, which does not structurally decrease for arbitrary strings; `none`
means the fuel ran out, which never happens for validated names).  On a
conflict the error is returned with the registry as mutated so far; on
success the walk registers every ancestor as a directory. -/
def checkF (fold : String → String) : Nat → CollisionChecker → String → Bool →
    Option (Option GoErr × CollisionChecker)
  | 0, _, _, _ => none
  | fuel + 1, cc, p, isDir =>
    match ccFind cc (fold p) with
    | some other =>
      if p ≠ other.path then some (some (GoErr.collision other.path p), cc)
      else if isDir ≠ other.isDir then some (some (GoErr.bothFileAndDir p), cc)
      else if isDir = false then some (some (GoErr.multipleEntries p), cc)
      else
        if pathDir p ≠ "." then checkF fold fuel cc (pathDir p) true
        else some (none, cc)
    | none =>
      if pathDir p ≠ "." then
        checkF fold fuel ((fold p, PathInfo.mk p isDir) :: cc) (pathDir p) true
      else some (none, (fold p, PathInfo.mk p isDir) :: cc)

/-! The per-entry scan of checkZip, src/main.go lines 153-194. -/

/-- One raw zip entry header: its name (a trailing separator marks a
directory) and the declared uncompressed size (a uint64). -/
structure ZEntry where
  Name : String
  UncompressedSize64 : Nat

/-- The Go conversion `int64(u)` of a uint64 value. -/
def int64OfUInt64 (n : Nat) : Int :=
  if n % 2 ^ 64 < 2 ^ 63 then ((n % 2 ^ 64 : Nat) : Int)
  else ((n % 2 ^ 64 : Nat) : Int) - 2 ^ 64

/-- The state threaded through the checkZip loop: the report under
construction, the collision registry and the running size total. -/
structure ScanState where
  cf : CheckedFiles
  cc : CollisionChecker
  size : Int

def addInvalid (st : ScanState) (p : String) (e : GoErr) : ScanState :=
  { st with cf := { st.cf with Invalid := st.cf.Invalid ++ [(p, e)] } }

def addValid (st : ScanState) (p : String) : ScanState :=
  { st with cf := { st.cf with Valid := st.cf.Valid ++ [p] } }

/-- Strip one trailing character (the directory separator). -/
def dropLastChar (s : String) : String := ⟨s.data.dropLast⟩

/-- One iteration of the checkZip loop (src/main.go lines 164-192):
derive the directory flag, validate the name, check collisions (keeping
the registry as mutated even when the check fails), then enforce the
size budget for file entries and classify the entry.  `none` reports
collision-fuel exhaustion, which validated names never trigger. -/
def scanEntry (st : ScanState) (zf : ZEntry) : Option ScanState :=
  let name0 := zf.Name
  let isDir := name0.data.getLast? = some '/'
  let name := if isDir then dropLastChar name0 else name0
  if pathClean name ≠ name then some (addInvalid st zf.Name (GoErr.notClean name))
  else
    match checkFilePath name with
    | some e => some (addInvalid st zf.Name e)
    | none =>
      match checkF strToFold (name.data.length + 1) st.cc name isDir with
      | none => none
      | some (some e, cc') => some (addInvalid { st with cc := cc' } zf.Name e)
      | some (none, cc') =>
        if isDir then some { st with cc := cc' }
        else
          let sz := int64OfUInt64 zf.UncompressedSize64
          if 0 ≤ sz ∧ MaxZipFile - st.size ≥ sz then
            some (addValid { st with
              cc := cc'
              size := st.size + sz } zf.Name)
          else if st.cf.SizeError.isNone then
            some (addValid { st with
              cc := cc'
              cf := { st.cf with
                SizeError := some (GoErr.totalSizeTooLarge MaxZipFile) } } zf.Name)
          else some (addValid { st with cc := cc' } zf.Name)

/-- The checkZip loop over all entries. -/
def scanList : ScanState → List ZEntry → Option ScanState
  | st, [] => some st
  | st, zf :: rest =>
    match scanEntry st zf with
    | none => none
    | some st' => scanList st' rest

/-- checkZip of src/main.go restricted to its per-entry validation pass
(the container size check and zip decoding are I/O and are modelled in
`runModel`): the report produced from an empty registry and zero total. -/
def checkZipEntries (entries : List ZEntry) : Option CheckedFiles :=
  (scanList ⟨{}, [], 0⟩ entries).map fun st => st.cf

/-! Extraction of one entry, src/main.go lines 252-273. -/

/-- Extraction of one file entry (src/main.go lines 261-273): the
decompressed `stream` is copied through a reader limited to
`declaredSize + 1` bytes, and the entry fails exactly when that limit is
reached.  Returns the error, if any, together with the bytes written to
the destination file (written even in the failure case). -/
def extractFile (name : String) (declaredSize : Nat) (stream : List Nat) :
    Option GoErr × List Nat :=
  let written := stream.take (declaredSize + 1)
  if declaredSize + 1 ≤ stream.length then
    (some (GoErr.declaredSizeExceeded name declaredSize), written)
  else (none, written)

/-! The content hasher.  Modelled from the spec: hashZip of src/main.go
line 64 delegates to the external dirhash.HashZip with dirhash.Hash1
(golang.org/x/mod/sumdb/dirhash); the fingerprint is
`"h1:" + base64(sha256(concatenation of sorted "sha256hex  path\n" lines))`
over the (path, decompressed content) pairs of the file entries, so the
compression method of an entry cannot influence it. -/

/-- The cryptographic primitives of the fingerprint, external black
boxes: the digest over a byte stream, the hex rendering of a digest and
the base64 rendering of a digest. -/
structure HashPrims where
  sha256 : List Nat → List Nat
  hexStr : List Nat → String
  base64 : List Nat → String

/-- One logical file of an archive: its path and decompressed content. -/
def FileEntry := String × List Nat

/-- The bytes of a string (abstracting UTF-8 encoding as code points). -/
def strBytes (s : String) : List Nat := s.data.map Char.toNat

/-- Lexicographic comparison of byte lists. -/
def leL : List Nat → List Nat → Bool
  | [], _ => true
  | _ :: _, [] => false
  | a :: as, b :: bs => if a < b then true else if b < a then false else leL as bs

/-- The order in which the per-file lines are fed to the outer digest:
by path, ties (two entries with the same path) broken by content so that
the sorted list is a function of the multiset of entries. -/
def fileOrd (a b : FileEntry) : Prop :=
  a.1 < b.1 ∨ (a.1 = b.1 ∧ leL a.2 b.2 = true)

instance : DecidableRel fileOrd := fun a b => by
  unfold fileOrd; infer_instance

/-- The per-file line `"<sha256-hex>  <path>\n"` of dirhash.Hash1. -/
def fileLine (hp : HashPrims) (f : FileEntry) : String :=
  hp.hexStr (hp.sha256 f.2) ++ "  " ++ f.1 ++ "\n"

/-- Modelled from the spec: the fingerprint of an archive given as its
list of file entries in archive order. -/
def hashZipF (hp : HashPrims) (files : List FileEntry) : String :=
  "h1:" ++ hp.base64 (hp.sha256 (strBytes
    (String.join ((files.insertionSort fileOrd).map (fileLine hp)))))

/-! The invocation model: run (src/main.go lines 26-61) and unzip
(src/main.go lines 206-281), as trace-producing functions over an
abstract environment standing for the file system and the zip decoder. -/

/-- Observable steps of one invocation, in the order they are performed. -/
inductive Ev where
  | evHashZip : Ev
  | evCompareHash : Ev
  | evOpenZip : Ev
  | evReadDirTarget : Ev
  | evCheckZip : Ev
  | evMkdirTarget : Ev
  | evMkdirParent (p : String) : Ev
  | evWriteFile (p : String) : Ev
deriving DecidableEq

/-- One entry as seen by the extraction loop: the header name and
declared size together with the decompressed byte stream. -/
structure XEntry where
  name : String
  declared : Nat
  stream : List Nat

/-- The environment of one invocation: the outcomes of the external
steps (hashing, opening the archive, listing the target directory, the
validation verdict of checkZip) and the decoded entries. -/
structure RunEnv where
  hashResult : Except GoErr String
  openErr : Option GoErr
  targetNonEmpty : Bool
  checkErr : Option GoErr
  entries : List XEntry

/-- The extraction loop of unzip (src/main.go lines 235-274): skip
directory markers and, under a prefix, non-matching entries; write each
remaining file (parent directories first), aborting on a declared-size
violation.  Returns the events, the error if any, and whether some entry
matched the prefix. -/
def extractLoop : List XEntry → String → Bool → List Ev × Option GoErr × Bool
  | [], _, matched => ([], none, matched)
  | zf :: rest, pfx, matched =>
    if zf.name = "" ∨ zf.name.data.getLast? = some '/' then extractLoop rest pfx matched
    else if pfx ≠ "" ∧ ¬ (pfx ++ "/").isPrefixOf zf.name then extractLoop rest pfx matched
    else
      let matched' := if pfx ≠ "" then true else matched
      let dst := if pfx ≠ "" then zf.name.drop (pfx.length + 1) else zf.name
      match extractFile zf.name zf.declared zf.stream with
      | (some e, _) => ([Ev.evMkdirParent dst, Ev.evWriteFile dst], some e, matched')
      | (none, _) =>
        let (evs, res, m) := extractLoop rest pfx matched'
        (Ev.evMkdirParent dst :: Ev.evWriteFile dst :: evs, res, m)

/-- unzip from src/main.go lines 206-281: reject a non-empty target,
open and re-validate the zip, create the target directory, run the
extraction loop, and finally reject a prefix that matched nothing.
Every error is wrapped in the unzip zipError. -/
def unzipModel (env : RunEnv) (dir zipFile pfx : String) : List Ev × Option GoErr :=
  let wrap := fun e => GoErr.zipError "unzip" zipFile e
  if env.targetNonEmpty then
    ([Ev.evReadDirTarget], some (wrap (GoErr.targetNotEmpty dir)))
  else
    match env.openErr with
    | some e => ([Ev.evReadDirTarget, Ev.evOpenZip], some (wrap e))
    | none =>
      match env.checkErr with
      | some e => ([Ev.evReadDirTarget, Ev.evOpenZip, Ev.evCheckZip], some (wrap e))
      | none =>
        let (evs, res, matched) := extractLoop env.entries pfx false
        ([Ev.evReadDirTarget, Ev.evOpenZip, Ev.evCheckZip, Ev.evMkdirTarget] ++ evs,
          match res with
          | some e => some (wrap e)
          | none =>
            if pfx ≠ "" ∧ matched = false then some (wrap (GoErr.noFileMatchedPfx pfx))
            else none)

/-- run from src/main.go lines 26-61: check the argument count, hash the
zip, then either validate and print the fingerprint (one argument) or
compare the fingerprint with the expected value and extract (three or
four arguments). -/
def runModel (args : List String) (env : RunEnv) : List Ev × Option GoErr :=
  if ¬ (args.length = 1 ∨ args.length = 3 ∨ args.length = 4) then ([], some GoErr.usageErr)
  else
    match env.hashResult with
    | Except.error e => ([Ev.evHashZip], some e)
    | Except.ok h =>
      if args.length = 1 then
        match env.openErr with
        | some e => ([Ev.evHashZip, Ev.evOpenZip], some e)
        | none =>
          match env.checkErr with
          | some e => ([Ev.evHashZip, Ev.evOpenZip, Ev.evCheckZip], some e)
          | none => ([Ev.evHashZip, Ev.evOpenZip, Ev.evCheckZip], none)
      else
        if h = args.getD 1 "" then
          match unzipModel env (args.getD 2 "") (args.getD 0 "") (args.getD 3 "") with
          | (evs, res) => (Ev.evHashZip :: Ev.evCompareHash :: evs, res)
        else
          ([Ev.evHashZip, Ev.evCompareHash], some (GoErr.hashMismatch h (args.getD 1 "")))

/-! Derived predicates used to state the claims. -/

/-- Declarative acceptance of one path element, mirroring the rejection
conditions of `checkElem`. -/
def goodElem (e : List Char) : Bool :=
  !e.isEmpty && !(e.all fun c => c = '.') && !(e.getLast? = some '.') &&
    e.all fileNameOK && !isBadWindowsName e

/-- Declarative acceptance of an entry name: every separator-delimited
segment is acceptable (this forces the name non-empty with no leading,
trailing or doubled separator). -/
def goodName (cs : List Char) : Bool := (splitSegs cs).all goodElem

/-- The four rejection conditions in the words of the claim on the path
validator: a `..` segment, a leading separator, a redundant (doubled or
trailing) separator, or a character outside the portable safe set. -/
def specRejectCond (s : String) : Bool :=
  (splitSegs s.data).contains ['.', '.'] || s.data.head? = some '/' ||
    hasDD s.data || s.data.getLast? = some '/' ||
    !(s.data.all fun c => c = '/' || fileNameOK c)

/-- Total declared uncompressed size of the file entries of an archive,
after the uint64-to-int64 conversion applied by checkZip. -/
def sumSizes : List ZEntry → Int
  | [] => 0
  | zf :: rest =>
    (if zf.Name.data.getLast? = some '/' then 0 else int64OfUInt64 zf.UncompressedSize64) +
      sumSizes rest

/-- The ancestor directories of a path: the chain of parents produced by
`pathDir`, up to the root, cut off by the fuel. -/
def ancestorsF : Nat → String → List String
  | 0, _ => []
  | m + 1, p => if pathDir p = "." then [] else pathDir p :: ancestorsF m (pathDir p)

/-- All ancestors of `q` are registered in `cc` as directories. -/
def dirAnc (fold : String → String) (cc : CollisionChecker) (m : Nat) (q : String) : Prop :=
  ∀ a ∈ ancestorsF m q, ∃ j, ccFind cc (fold a) = some j ∧ j.isDir = true

/-- The registry invariant claimed by the spec: every registered path
has all of its ancestor directories registered as directories. -/
def ccInv (fold : String → String) (m : Nat) (cc : CollisionChecker) : Prop :=
  ∀ k v, ccFind cc k = some v → dirAnc fold cc m v.path

/-! Theorems. -/

/-- C2: the error of a `CheckedFiles` report: a recorded size error is
returned and suppresses the per-entry errors from the returned failure
(they stay in the `Invalid` field, which `Err` does not modify);
otherwise a non-empty `Invalid` list is returned as the aggregate
`fileErrorList`; otherwise there is no failure. -/
theorem checkedFiles_err_spec (cf : CheckedFiles) :
    (∀ e, cf.SizeError = some e → cf.Err = some e) ∧
    (cf.SizeError = none → cf.Invalid ≠ [] → cf.Err = some (GoErr.fileErrorList cf.Invalid)) ∧
    (cf.SizeError = none → cf.Invalid = [] → cf.Err = none) := by
  refine ⟨fun e he => ?_, fun hs hi => ?_, fun hs hi => ?_⟩ <;>
    simp [CheckedFiles.Err, *]

/-- Witness for C2 on a concrete report with a size error. -/
theorem checkedFiles_err_spec_witness :
    ({ SizeError := some GoErr.usageErr : CheckedFiles }).Err = some GoErr.usageErr :=
  (checkedFiles_err_spec _).1 GoErr.usageErr rfl

/-- C3: outcome of `check(p, isDir)` when the folded form of `p` is
already registered, decided in priority order: a collision error naming
the registered path and `p` when the registered original path differs; a
file/directory conflict error when only the directory flag differs; a
multiple-entries error when both are files; and for a matching directory
registration a no-op (registry unchanged) followed by the recursion on
the parent path, registered as a directory, until the root. -/
theorem check_registered_spec (fold : String → String) (fuel : Nat)
    (cc : CollisionChecker) (p : String) (d : Bool) (other : PathInfo)
    (hreg : ccFind cc (fold p) = some other) :
    (other.path ≠ p →
      checkF fold (fuel + 1) cc p d = some (some (GoErr.collision other.path p), cc)) ∧
    (other.path = p → other.isDir ≠ d →
      checkF fold (fuel + 1) cc p d = some (some (GoErr.bothFileAndDir p), cc)) ∧
    (other.path = p → other.isDir = d → d = false →
      checkF fold (fuel + 1) cc p d = some (some (GoErr.multipleEntries p), cc)) ∧
    (other.path = p → other.isDir = d → d = true →
      checkF fold (fuel + 1) cc p d =
        if pathDir p ≠ "." then checkF fold fuel cc (pathDir p) true
        else some (none, cc)) := by
  refine ⟨fun h1 => ?_, fun h1 h2 => ?_, fun h1 h2 h3 => ?_, fun h1 h2 h3 => ?_⟩
  · simp only [checkF, hreg]
    rw [if_pos (Ne.symm h1)]
  · simp only [checkF, hreg]
    rw [if_neg (fun hh => hh h1.symm), if_pos (Ne.symm h2)]
  · simp only [checkF, hreg]
    rw [if_neg (fun hh => hh h1.symm), if_neg (fun hh => hh h2.symm), if_pos h3]
  · simp only [checkF, hreg]
    rw [if_neg (fun hh => hh h1.symm), if_neg (fun hh => hh h2.symm),
      if_neg (by simp [h3])]

/-- Witness for C3: re-registering the directory `a` in a registry that
already holds it is a no-op followed by the parent recursion, which
stops at the root. -/
theorem check_registered_spec_witness :
    checkF strToFold 2 [("a", PathInfo.mk "a" true)] "a" true =
      (if pathDir "a" ≠ "." then
        checkF strToFold 1 [("a", PathInfo.mk "a" true)] (pathDir "a") true
      else some (none, [("a", PathInfo.mk "a" true)])) :=
  (check_registered_spec strToFold 1 [("a", PathInfo.mk "a" true)] "a" true
    (PathInfo.mk "a" true) (by decide)).2.2.2 rfl rfl rfl

/-- C10: when the re-run validation inside unzip fails, unzip returns
that error (wrapped in the unzip error context) and the trace contains
no target-directory creation and no file write: the target file system
is untouched. -/
theorem unzip_validation_failure (env : RunEnv) (dir zipFile pfx : String) (e : GoErr)
    (h1 : env.targetNonEmpty = false) (h2 : env.openErr = none)
    (h3 : env.checkErr = some e) :
    unzipModel env dir zipFile pfx =
      ([Ev.evReadDirTarget, Ev.evOpenZip, Ev.evCheckZip],
        some (GoErr.zipError "unzip" zipFile e)) ∧
    Ev.evMkdirTarget ∉ (unzipModel env dir zipFile pfx).1 ∧
    (∀ p, Ev.evWriteFile p ∉ (unzipModel env dir zipFile pfx).1) ∧
    (∀ p, Ev.evMkdirParent p ∉ (unzipModel env dir zipFile pfx).1) := by
  have hu : unzipModel env dir zipFile pfx =
      ([Ev.evReadDirTarget, Ev.evOpenZip, Ev.evCheckZip],
        some (GoErr.zipError "unzip" zipFile e)) := by
    unfold unzipModel
    rw [h1, h2, h3]
    simp
  refine ⟨hu, ?_, ?_, ?_⟩ <;> simp [hu]

/-- Witness for C10 on a concrete failing validation. -/
theorem unzip_validation_failure_witness :
    unzipModel ⟨Except.ok "h", none, false, some GoErr.usageErr, []⟩ "d" "z" "" =
      ([Ev.evReadDirTarget, Ev.evOpenZip, Ev.evCheckZip],
        some (GoErr.zipError "unzip" "z" GoErr.usageErr)) :=
  (unzip_validation_failure ⟨Except.ok "h", none, false, some GoErr.usageErr, []⟩
    "d" "z" "" GoErr.usageErr rfl rfl rfl).1

/-- Registry lookup after one insertion. -/
theorem ccFind_cons (k0 : String) (i : PathInfo) (cc : CollisionChecker) (k : String) :
    ccFind ((k0, i) :: cc) k = if k0 = k then some i else ccFind cc k := rfl

/-- Inserting an absent key preserves every present binding. -/
theorem ccFind_insert_of_absent {cc : CollisionChecker} {k0 k : String}
    {i v : PathInfo} (hab : ccFind cc k0 = none) (h : ccFind cc k = some v) :
    ccFind ((k0, i) :: cc) k = some v := by
  rw [ccFind_cons]
  split
  · next heq => rw [heq] at hab; rw [hab] at h; cases h
  · exact h

/-- Every call to check, successful or not, preserves all existing
registry bindings: the registry only grows. -/
theorem checkF_growth (fold : String → String) : ∀ (fuel : Nat) (cc : CollisionChecker)
    (p : String) (d : Bool) (r : Option GoErr) (cc' : CollisionChecker),
    checkF fold fuel cc p d = some (r, cc') →
    ∀ k v, ccFind cc k = some v → ccFind cc' k = some v := by
  intro fuel
  induction fuel with
  | zero => intro cc p d r cc' h; simp [checkF] at h
  | succ n ih =>
    intro cc p d r cc' h k v hv
    simp only [checkF] at h
    cases hfind : ccFind cc (fold p) with
    | some other =>
      rw [hfind] at h
      simp only at h
      split at h
      · simp only [Option.some.injEq, Prod.mk.injEq] at h
        exact h.2 ▸ hv
      · split at h
        · simp only [Option.some.injEq, Prod.mk.injEq] at h
          exact h.2 ▸ hv
        · split at h
          · simp only [Option.some.injEq, Prod.mk.injEq] at h
            exact h.2 ▸ hv
          · split at h
            · exact ih _ _ _ _ _ h k v hv
            · simp only [Option.some.injEq, Prod.mk.injEq] at h
              exact h.2 ▸ hv
    | none =>
      rw [hfind] at h
      simp only at h
      have hv1 : ccFind ((fold p, PathInfo.mk p d) :: cc) k = some v :=
        ccFind_insert_of_absent hfind hv
      split at h
      · exact ih _ _ _ _ _ h k v hv1
      · simp only [Option.some.injEq, Prod.mk.injEq] at h
        exact h.2 ▸ hv1

/-- A successful call to check leaves `p` registered with its own flag,
leaves every ancestor of `p` registered as a directory, and every
binding of the final registry is either an old binding or one whose path
has all its ancestors registered as directories. -/
theorem checkF_success_master (fold : String → String) : ∀ (fuel : Nat)
    (cc : CollisionChecker) (p : String) (d : Bool) (cc' : CollisionChecker),
    checkF fold fuel cc p d = some (none, cc') →
    (∃ j, ccFind cc' (fold p) = some j ∧ j.path = p ∧ j.isDir = d) ∧
    (∀ m, dirAnc fold cc' m p) ∧
    (∀ k v, ccFind cc' k = some v →
      ccFind cc k = some v ∨ ∀ m, dirAnc fold cc' m v.path) := by
  intro fuel
  induction fuel with
  | zero => intro cc p d cc' h; simp [checkF] at h
  | succ n ih =>
    intro cc p d cc' h
    simp only [checkF] at h
    cases hfind : ccFind cc (fold p) with
    | some other =>
      rw [hfind] at h
      simp only at h
      split at h
      · simp at h
      · split at h
        · simp at h
        · split at h
          · simp at h
          · next h1 h2 h3 =>
            have hp : other.path = p := by
              by_contra hne
              exact h1 fun he => hne he.symm
            have hd : other.isDir = d := by
              by_contra hne
              exact h2 fun he => hne he.symm
            have hdt : d = true := by
              cases d
              · exact absurd rfl h3
              · rfl
            split at h
            · next hroot =>
              obtain ⟨R', A', N'⟩ := ih _ _ _ _ h
              have G' := checkF_growth fold n cc (pathDir p) true none cc' h
              have hA : ∀ m, dirAnc fold cc' m p := by
                intro m
                cases m with
                | zero => intro a ha; simp [ancestorsF] at ha
                | succ m =>
                  intro a ha
                  simp only [ancestorsF, if_neg hroot] at ha
                  cases ha with
                  | head => obtain ⟨j, hj, _, hjdir⟩ := R'; exact ⟨j, hj, hjdir⟩
                  | tail _ hmem => exact A' m a hmem
              refine ⟨⟨other, G' _ _ hfind, hp, hd⟩, hA, ?_⟩
              intro k v hval
              exact N' k v hval
            · next hroot =>
              simp only [Option.some.injEq, Prod.mk.injEq, true_and] at h
              subst h
              have hroot' : pathDir p = "." := by
                by_contra hne
                exact hroot hne
              have hA : ∀ m, dirAnc fold cc m p := by
                intro m
                cases m with
                | zero => intro a ha; simp [ancestorsF] at ha
                | succ m =>
                  intro a ha
                  simp [ancestorsF, hroot'] at ha
              exact ⟨⟨other, hfind, hp, hd⟩, hA, fun k v hval => Or.inl hval⟩
    | none =>
      rw [hfind] at h
      simp only at h
      have hself : ccFind ((fold p, PathInfo.mk p d) :: cc) (fold p) =
          some (PathInfo.mk p d) := by
        rw [ccFind_cons]; simp
      split at h
      · next hroot =>
        obtain ⟨R', A', N'⟩ := ih _ _ _ _ h
        have G' := checkF_growth fold n ((fold p, PathInfo.mk p d) :: cc)
          (pathDir p) true none cc' h
        have hA : ∀ m, dirAnc fold cc' m p := by
          intro m
          cases m with
          | zero => intro a ha; simp [ancestorsF] at ha
          | succ m =>
            intro a ha
            simp only [ancestorsF, if_neg hroot] at ha
            cases ha with
            | head => obtain ⟨j, hj, _, hjdir⟩ := R'; exact ⟨j, hj, hjdir⟩
            | tail _ hmem => exact A' m a hmem
        refine ⟨⟨PathInfo.mk p d, G' _ _ hself, rfl, rfl⟩, hA, ?_⟩
        intro k v hval
        rcases N' k v hval with hin1 | hdir
        · rw [ccFind_cons] at hin1
          split at hin1
          · simp only [Option.some.injEq] at hin1
            right
            rw [← hin1]
            exact hA
          · exact Or.inl hin1
        · exact Or.inr hdir
      · next hroot =>
        simp only [Option.some.injEq, Prod.mk.injEq, true_and] at h
        subst h
        have hroot' : pathDir p = "." := by
          by_contra hne
          exact hroot hne
        have hA : ∀ m, dirAnc fold ((fold p, PathInfo.mk p d) :: cc) m p := by
          intro m
          cases m with
          | zero => intro a ha; simp [ancestorsF] at ha
          | succ m => intro a ha; simp [ancestorsF, hroot'] at ha
        refine ⟨⟨PathInfo.mk p d, hself, rfl, rfl⟩, hA, ?_⟩
        intro k v hval
        rw [ccFind_cons] at hval
        split at hval
        · simp only [Option.some.injEq] at hval
          right
          rw [← hval]
          exact hA
        · exact Or.inl hval

/-- C8 (amended): across every call to check — including calls that
return an error — the registry only grows: every existing binding is
preserved.  After a call that returns success, the ancestor invariant is
preserved: every registered path has all of its ancestor directories
registered as directories.  (After a call that returns an error the
ancestor invariant can be broken, see the counterexample.) -/
theorem check_registry_growth_and_invariant (fold : String → String) (fuel : Nat)
    (cc : CollisionChecker) (p : String) (d : Bool) (out : Option GoErr)
    (cc' : CollisionChecker) (h : checkF fold fuel cc p d = some (out, cc')) :
    (∀ k v, ccFind cc k = some v → ccFind cc' k = some v) ∧
    (out = none → ∀ m, ccInv fold m cc → ccInv fold m cc') := by
  refine ⟨checkF_growth fold fuel cc p d out cc' h, ?_⟩
  intro hout m hinv
  subst hout
  obtain ⟨_, _, hN⟩ := checkF_success_master fold fuel cc p d cc' h
  intro k v hval
  rcases hN k v hval with hold | hnew
  · intro a ha
    obtain ⟨j, hj, hjd⟩ := hinv k v hold a ha
    exact ⟨j, checkF_growth fold fuel cc p d none cc' h _ _ hj, hjd⟩
  · exact hnew m

/-- Witness for C8: inserting `a` into a registry holding `z` preserves
the binding of `z`. -/
theorem check_registry_growth_and_invariant_witness :
    ccFind [("a", PathInfo.mk "a" false), ("z", PathInfo.mk "z" true)] "z" =
      some (PathInfo.mk "z" true) :=
  (check_registry_growth_and_invariant strToFold 2 [("z", PathInfo.mk "z" true)]
    "a" false none [("a", PathInfo.mk "a" false), ("z", PathInfo.mk "z" true)]
    rfl).1 "z" (PathInfo.mk "z" true) rfl

/-- Counterexample for C8 as claimed: after registering the file `a`
(a reachable registry state), the erroring call `check("a/b", file)`
leaves `a/b` registered while its ancestor `a` is registered as a file,
so the ancestor-directories invariant does not hold after every call
that returns an error. -/
theorem check_registry_invariant_cex :
    checkF strToFold 10 [] "a" false = some (none, [("a", PathInfo.mk "a" false)]) ∧
    checkF strToFold 10 [("a", PathInfo.mk "a" false)] "a/b" false =
      some (some (GoErr.bothFileAndDir "a"),
        [("a/b", PathInfo.mk "a/b" false), ("a", PathInfo.mk "a" false)]) ∧
    ¬ ccInv strToFold 1 [("a/b", PathInfo.mk "a/b" false), ("a", PathInfo.mk "a" false)] := by
  refine ⟨rfl, rfl, fun h => ?_⟩
  have h2 := h "a/b" (PathInfo.mk "a/b" false) rfl "a" (by decide)
  obtain ⟨j, hj, hjd⟩ := h2
  have hje : (some (PathInfo.mk "a" false) : Option PathInfo) = some j :=
    (rfl : ccFind [("a/b", PathInfo.mk "a/b" false), ("a", PathInfo.mk "a" false)]
      (strToFold "a") = some (PathInfo.mk "a" false)).symm.trans hj
  rw [← Option.some.inj hje] at hjd
  exact absurd hjd (by decide)

/-- Totality of the lexicographic byte order. -/
theorem leL_total : ∀ a b : List Nat, leL a b = true ∨ leL b a = true := by
  intro a
  induction a with
  | nil => intro b; left; rfl
  | cons x xs ih =>
    intro b
    cases b with
    | nil => right; rfl
    | cons y ys =>
      by_cases hxy : x < y
      · left; simp [leL, hxy]
      · by_cases hyx : y < x
        · right; simp [leL, hyx, Nat.lt_asymm hyx]
        · have hx : x = y := Nat.le_antisymm (Nat.le_of_not_lt hyx) (Nat.le_of_not_lt hxy)
          rcases ih ys with h | h
          · left; simp [leL, hxy, hyx, hx, h]
          · right; simp [leL, hxy, hyx, hx.symm, h]

/-- Transitivity of the lexicographic byte order. -/
theorem leL_trans : ∀ a b c : List Nat, leL a b = true → leL b c = true → leL a c = true := by
  intro a
  induction a with
  | nil => intro b c _ _; rfl
  | cons x xs ih =>
    intro b c hab hbc
    cases b with
    | nil => simp [leL] at hab
    | cons y ys =>
      cases c with
      | nil => simp [leL] at hbc
      | cons z zs =>
        simp only [leL] at hab hbc ⊢
        split at hab
        · next hxy =>
          split at hbc
          · next hyz => simp [Nat.lt_trans hxy hyz]
          · next hyz =>
            split at hbc
            · exact absurd hbc (by simp)
            · next hzy =>
              have : y = z := Nat.le_antisymm (Nat.le_of_not_lt hzy) (Nat.le_of_not_lt hyz)
              simp [this ▸ hxy]
        · next hxy =>
          split at hab
          · exact absurd hab (by simp)
          · next hyx =>
            have hxy' : x = y := Nat.le_antisymm (Nat.le_of_not_lt hyx) (Nat.le_of_not_lt hxy)
            split at hbc
            · next hyz => simp [hxy' ▸ hyz]
            · next hyz =>
              split at hbc
              · exact absurd hbc (by simp)
              · next hzy =>
                have hyz' : y = z := Nat.le_antisymm (Nat.le_of_not_lt hzy) (Nat.le_of_not_lt hyz)
                have hxz : ¬ x < z := by rw [hxy', hyz']; exact Nat.lt_irrefl z
                have hzx : ¬ z < x := by rw [hxy', hyz']; exact Nat.lt_irrefl z
                simp [hxz, hzx]
                exact ih ys zs hab hbc

/-- Antisymmetry of the lexicographic byte order. -/
theorem leL_antisymm : ∀ a b : List Nat, leL a b = true → leL b a = true → a = b := by
  intro a
  induction a with
  | nil =>
    intro b _ hba
    cases b with
    | nil => rfl
    | cons y ys => simp [leL] at hba
  | cons x xs ih =>
    intro b hab hba
    cases b with
    | nil => simp [leL] at hab
    | cons y ys =>
      simp only [leL] at hab hba
      split at hab
      · next hxy =>
        rw [if_neg (Nat.lt_asymm hxy), if_pos hxy] at hba
        exact absurd hba (by simp)
      · next hxy =>
        split at hab
        · exact absurd hab (by simp)
        · next hyx =>
          have hx : x = y := Nat.le_antisymm (Nat.le_of_not_lt hyx) (Nat.le_of_not_lt hxy)
          rw [if_neg (hx ▸ hyx), if_neg (hx ▸ hxy)] at hba
          rw [hx, ih ys hab hba]

instance : IsTotal FileEntry fileOrd := by
  constructor
  intro a b
  rcases lt_trichotomy a.1 b.1 with h | h | h
  · exact Or.inl (Or.inl h)
  · rcases leL_total a.2 b.2 with h2 | h2
    · exact Or.inl (Or.inr ⟨h, h2⟩)
    · exact Or.inr (Or.inr ⟨h.symm, h2⟩)
  · exact Or.inr (Or.inl h)

instance : IsTrans FileEntry fileOrd := by
  constructor
  intro a b c hab hbc
  rcases hab with h1 | ⟨h1, h1'⟩
  · rcases hbc with h2 | ⟨h2, _⟩
    · exact Or.inl (lt_trans h1 h2)
    · exact Or.inl (h2 ▸ h1)
  · rcases hbc with h2 | ⟨h2, h2'⟩
    · exact Or.inl (h1 ▸ h2)
    · exact Or.inr ⟨h1.trans h2, leL_trans _ _ _ h1' h2'⟩

instance : IsAntisymm FileEntry fileOrd := by
  constructor
  intro a b hab hba
  rcases hab with h1 | ⟨h1, h1'⟩
  · rcases hba with h2 | ⟨h2, _⟩
    · exact absurd h2 (lt_asymm h1)
    · exact absurd (h2 ▸ h1) (lt_irrefl b.1)
  · rcases hba with h2 | ⟨_, h2'⟩
    · exact absurd (h1 ▸ h2) (lt_irrefl a.1)
    · exact Prod.ext h1 (leL_antisymm _ _ h1' h2')

/-- C1: the fingerprint has the form
`"h1:" ++ base64(sha256(concatenation of per-file lines))` where the
lines are taken sorted by path over the file entries of the archive, and
it is a function of the multiset of (path, content) pairs: any entry
reordering yields the identical fingerprint (the compression method of
an entry does not appear in the model, which hashes decompressed
content, so it cannot influence the fingerprint). -/
theorem hashZip_spec (hp : HashPrims) (files1 files2 : List FileEntry) :
    (hashZipF hp files1 = "h1:" ++ hp.base64 (hp.sha256 (strBytes
        (String.join ((files1.insertionSort fileOrd).map (fileLine hp))))) ∧
      (files1.insertionSort fileOrd).Perm files1 ∧
      List.Sorted (fun a b : FileEntry => a.1 ≤ b.1) (files1.insertionSort fileOrd)) ∧
    (files1.Perm files2 → hashZipF hp files1 = hashZipF hp files2) := by
  constructor
  · refine ⟨rfl, List.perm_insertionSort _ _, ?_⟩
    have hs := List.sorted_insertionSort fileOrd files1
    exact hs.imp fun hab => hab.elim le_of_lt fun h => le_of_eq h.1
  · intro hperm
    have hsorteq : files1.insertionSort fileOrd = files2.insertionSort fileOrd :=
      List.eq_of_perm_of_sorted
        ((List.perm_insertionSort _ _).trans (hperm.trans
          (List.perm_insertionSort fileOrd files2).symm))
        (List.sorted_insertionSort _ _) (List.sorted_insertionSort _ _)
    unfold hashZipF
    rw [hsorteq]

/-- Witness for C1: swapping two entries leaves the fingerprint
unchanged. -/
theorem hashZip_spec_witness :
    hashZipF ⟨id, fun _ => "d", fun _ => "b"⟩ [("b", [1]), ("a", [2])] =
      hashZipF ⟨id, fun _ => "d", fun _ => "b"⟩ [("a", [2]), ("b", [1])] :=
  (hashZip_spec ⟨id, fun _ => "d", fun _ => "b"⟩ [("b", [1]), ("a", [2])]
    [("a", [2]), ("b", [1])]).2 (List.Perm.swap ("a", [2]) ("b", [1]) [])

/-- The extraction loop emits only per-file events: never the validation
event and never the target-directory creation event. -/
theorem extractLoop_events : ∀ (es : List XEntry) (pfx : String) (m : Bool),
    Ev.evCheckZip ∉ (extractLoop es pfx m).1 ∧
    Ev.evMkdirTarget ∉ (extractLoop es pfx m).1 := by
  intro es
  induction es with
  | nil => intro pfx m; simp [extractLoop]
  | cons zf rest ih =>
    intro pfx m
    simp only [extractLoop]
    split
    · exact ih pfx m
    · split
      · exact ih pfx m
      · cases hx : extractFile zf.name zf.declared zf.stream with
        | mk e w =>
          cases e with
          | some e0 => simp
          | none =>
            cases hrec : extractLoop rest pfx (if pfx ≠ "" then true else m) with
            | mk evs rm =>
              have := ih pfx (if pfx ≠ "" then true else m)
              rw [hrec] at this
              simp_all


/-- C9 (amended): in every invocation, neither a file write nor the
target-directory creation happens before the validation event;
target-directory creation and file writes happen only when validation
succeeded and the target was empty; and in the hash-check/extract modes
the fingerprint comparison happens directly after hashing — before
validation, and validation is reached only when the computed fingerprint
equals the expected value. -/
theorem run_order_spec (args : List String) (env : RunEnv) (tr : List Ev)
    (res : Option GoErr) (h : runModel args env = (tr, res)) :
    (∀ p, Ev.evWriteFile p ∉ tr.takeWhile fun e => e ≠ Ev.evCheckZip) ∧
    (Ev.evMkdirTarget ∉ tr.takeWhile fun e => e ≠ Ev.evCheckZip) ∧
    (Ev.evMkdirTarget ∈ tr → env.checkErr = none ∧ env.targetNonEmpty = false) ∧
    (∀ p, Ev.evWriteFile p ∈ tr → env.checkErr = none ∧ env.targetNonEmpty = false) ∧
    ((args.length = 3 ∨ args.length = 4) → Ev.evCheckZip ∈ tr →
      tr.take 2 = [Ev.evHashZip, Ev.evCompareHash] ∧
      ∃ hv, env.hashResult = Except.ok hv ∧ hv = args.getD 1 "") := by
  unfold runModel at h
  split at h
  · injection h with htr hres
    subst htr
    simp [List.takeWhile_cons]
  · split at h
    · injection h with htr hres
      subst htr
      simp [List.takeWhile_cons]
    · next hv heq =>
      split at h
      · next h1 =>
        have hc4 : args.length = 3 ∨ args.length = 4 → Ev.evCheckZip ∈ tr →
            tr.take 2 = [Ev.evHashZip, Ev.evCompareHash] ∧
            ∃ hv, env.hashResult = Except.ok hv ∧ hv = args.getD 1 "" := by
          intro hc
          rcases hc with hc | hc <;> omega
        split at h
        · injection h with htr hres
          subst htr
          exact ⟨by simp [List.takeWhile_cons], by simp [List.takeWhile_cons],
            by simp, by simp, hc4⟩
        · next heq2 =>
          split at h
          · injection h with htr hres
            subst htr
            exact ⟨by simp [List.takeWhile_cons], by simp [List.takeWhile_cons],
              by simp, by simp, hc4⟩
          · injection h with htr hres
            subst htr
            exact ⟨by simp [List.takeWhile_cons], by simp [List.takeWhile_cons],
              by simp, by simp, hc4⟩
      · next h1 =>
        split at h
        · next hcmp =>
          split at h
          · next evs res0 hequz =>
            injection h with htr hres
            subst htr
            unfold unzipModel at hequz
            split at hequz
            · next htne =>
              injection hequz with hevs _
              subst hevs
              simp [List.takeWhile_cons]
            · next htne =>
              have htne' : env.targetNonEmpty = false := by
                cases henv : env.targetNonEmpty
                · rfl
                · exact absurd henv htne
              split at hequz
              · injection hequz with hevs _
                subst hevs
                simp [List.takeWhile_cons]
              · next heq3 =>
                split at hequz
                · injection hequz with hevs _
                  subst hevs
                  refine ⟨by simp [List.takeWhile_cons], by simp [List.takeWhile_cons],
                    by simp, by simp, fun _ _ => ⟨rfl, hv, heq, hcmp⟩⟩
                · next heq4 =>
                  split at hequz
                  next evs2 res2 m2 heql =>
                    injection hequz with hevs _
                    subst hevs
                    refine ⟨?_, by simp [List.takeWhile_cons],
                      fun _ => ⟨heq4, htne'⟩, fun p _ => ⟨heq4, htne'⟩,
                      fun _ _ => ⟨rfl, hv, heq, hcmp⟩⟩
                    intro p
                    simp [List.takeWhile_cons]
        · next hcmp =>
          injection h with htr hres
          subst htr
          simp [List.takeWhile_cons]

/-- Counterexample for C9 as claimed: in a successful extract-mode
invocation the trace compares the fingerprint (position 1) before the
validation event (position 4), so the Validated state is not reached
before the comparison with the expected value. -/
theorem run_order_cex :
    (runModel ["z", "h", "d"] ⟨Except.ok "h", none, false, none, []⟩).1 =
      [Ev.evHashZip, Ev.evCompareHash, Ev.evReadDirTarget, Ev.evOpenZip,
        Ev.evCheckZip, Ev.evMkdirTarget] ∧
    (runModel ["z", "h", "d"] ⟨Except.ok "h", none, false, none, []⟩).1.indexOf
        Ev.evCompareHash <
      (runModel ["z", "h", "d"] ⟨Except.ok "h", none, false, none, []⟩).1.indexOf
        Ev.evCheckZip := by
  exact ⟨rfl, by decide⟩

/-- Witness for C9 on the concrete successful extract-mode invocation. -/
theorem run_order_spec_witness :
    List.take 2 [Ev.evHashZip, Ev.evCompareHash, Ev.evReadDirTarget, Ev.evOpenZip,
        Ev.evCheckZip, Ev.evMkdirTarget] = [Ev.evHashZip, Ev.evCompareHash] ∧
    ∃ hv, (Except.ok "h" : Except GoErr String) = Except.ok hv ∧
      hv = ["z", "h", "d"].getD 1 "" :=
  (run_order_spec ["z", "h", "d"] ⟨Except.ok "h", none, false, none, []⟩
    [Ev.evHashZip, Ev.evCompareHash, Ev.evReadDirTarget, Ev.evOpenZip,
      Ev.evCheckZip, Ev.evMkdirTarget] none rfl).2.2.2.2 (Or.inl rfl) (by decide)

/-- Case analysis of one checkZip loop iteration: the entry is recorded
as invalid (leaving size state alone), or is a directory passing all
checks (leaving the report alone), or is a file passing all checks,
which is appended to `Valid` unconditionally while the size budget
decides between adding to the total and recording the size error
(keeping an earlier size error unchanged). -/
theorem scanEntry_cases (st : ScanState) (zf : ZEntry) (st' : ScanState)
    (h : scanEntry st zf = some st') :
    (∃ e, st'.cf.Valid = st.cf.Valid ∧ st'.cf.Invalid = st.cf.Invalid ++ [(zf.Name, e)] ∧
      st'.cf.SizeError = st.cf.SizeError ∧ st'.size = st.size) ∨
    (zf.Name.data.getLast? = some '/' ∧ st'.cf.Valid = st.cf.Valid ∧
      st'.cf.Invalid = st.cf.Invalid ∧ st'.cf.SizeError = st.cf.SizeError ∧
      st'.size = st.size) ∨
    (zf.Name.data.getLast? ≠ some '/' ∧ st'.cf.Valid = st.cf.Valid ++ [zf.Name] ∧
      st'.cf.Invalid = st.cf.Invalid ∧
      ((0 ≤ int64OfUInt64 zf.UncompressedSize64 ∧
          MaxZipFile - st.size ≥ int64OfUInt64 zf.UncompressedSize64 ∧
          st'.cf.SizeError = st.cf.SizeError ∧
          st'.size = st.size + int64OfUInt64 zf.UncompressedSize64) ∨
        (¬ (0 ≤ int64OfUInt64 zf.UncompressedSize64 ∧
            MaxZipFile - st.size ≥ int64OfUInt64 zf.UncompressedSize64) ∧
          st'.cf.SizeError =
            some (st.cf.SizeError.getD (GoErr.totalSizeTooLarge MaxZipFile)) ∧
          st'.size = st.size))) := by
  simp only [scanEntry] at h
  by_cases hdir : zf.Name.data.getLast? = some '/'
  · simp only [hdir, eq_self_iff_true, if_true, decide_True] at h
    split at h
    · obtain rfl := Option.some.inj h
      exact Or.inl ⟨_, rfl, rfl, rfl, rfl⟩
    · split at h
      · obtain rfl := Option.some.inj h
        exact Or.inl ⟨_, rfl, rfl, rfl, rfl⟩
      · split at h
        · exact absurd h (by simp)
        · obtain rfl := Option.some.inj h
          exact Or.inl ⟨_, rfl, rfl, rfl, rfl⟩
        · obtain rfl := Option.some.inj h
          exact Or.inr (Or.inl ⟨hdir, rfl, rfl, rfl, rfl⟩)
  · simp only [hdir, if_false, decide_False] at h
    split at h
    · obtain rfl := Option.some.inj h
      exact Or.inl ⟨_, rfl, rfl, rfl, rfl⟩
    · split at h
      · obtain rfl := Option.some.inj h
        exact Or.inl ⟨_, rfl, rfl, rfl, rfl⟩
      · split at h
        · exact absurd h (by simp)
        · obtain rfl := Option.some.inj h
          exact Or.inl ⟨_, rfl, rfl, rfl, rfl⟩
        · split at h
          · next hsz =>
            obtain rfl := Option.some.inj h
            refine Or.inr (Or.inr ⟨hdir, rfl, rfl, ?_⟩)
            exact Or.inl ⟨hsz.1, hsz.2, rfl, rfl⟩
          · next hsz =>
            split at h
            · next hnone =>
              obtain rfl := Option.some.inj h
              refine Or.inr (Or.inr ⟨hdir, rfl, rfl, ?_⟩)
              refine Or.inr ⟨fun hc => hsz ⟨hc.1, hc.2⟩, ?_, rfl⟩
              have hser : st.cf.SizeError = none := Option.isNone_iff_eq_none.mp hnone
              simp [addValid, hser]
            · next hnone =>
              obtain rfl := Option.some.inj h
              refine Or.inr (Or.inr ⟨hdir, rfl, rfl, ?_⟩)
              refine Or.inr ⟨fun hc => hsz ⟨hc.1, hc.2⟩, ?_, rfl⟩
              cases hy : st.cf.SizeError with
              | none => rw [hy] at hnone; simp at hnone
              | some e => simp [addValid, hy]

/-- Disjointness of the valid and invalid path lists is preserved by the
checkZip loop as long as the remaining entry names are distinct and
fresh. -/
theorem scanList_disjoint : ∀ (es : List ZEntry) (st st' : ScanState),
    scanList st es = some st' →
    (es.map ZEntry.Name).Nodup →
    (∀ p, p ∈ st.cf.Valid → p ∉ es.map ZEntry.Name) →
    (∀ p, p ∈ st.cf.Invalid.map Prod.fst → p ∉ es.map ZEntry.Name) →
    (∀ p, p ∈ st.cf.Valid → p ∉ st.cf.Invalid.map Prod.fst) →
    ∀ p, p ∈ st'.cf.Valid → p ∉ st'.cf.Invalid.map Prod.fst := by
  intro es
  induction es with
  | nil =>
    intro st st' h _ _ _ hdisj
    obtain rfl := Option.some.inj h
    exact hdisj
  | cons zf rest ih =>
    intro st st' h hnd hv hi hdisj
    simp only [scanList] at h
    cases hstep : scanEntry st zf with
    | none => rw [hstep] at h; exact absurd h (by simp)
    | some st1 =>
      rw [hstep] at h
      have h' : scanList st1 rest = some st' := h
      rw [List.map_cons] at hnd
      obtain ⟨hfresh, hnd'⟩ := List.nodup_cons.mp hnd
      have hvtail : ∀ p, p ∈ st.cf.Valid → p ∉ rest.map ZEntry.Name := by
        intro p hp hmem
        exact hv p hp (by simp [hmem])
      have hitail : ∀ p, p ∈ st.cf.Invalid.map Prod.fst → p ∉ rest.map ZEntry.Name := by
        intro p hp hmem
        exact hi p hp (by simp [hmem])
      rcases scanEntry_cases st zf st1 hstep with
        ⟨e, hV, hI, _, _⟩ | ⟨_, hV, hI, _, _⟩ | ⟨_, hV, hI, _⟩
      · refine ih st1 st' h' hnd' (fun p hp => hvtail p (hV ▸ hp)) ?_ ?_
        · intro p hp
          rw [hI] at hp
          simp only [List.map_append, List.mem_append] at hp
          rcases hp with hp | hp
          · exact hitail p hp
          · simp only [List.map_cons, List.map_nil, List.mem_singleton] at hp
            exact hp ▸ hfresh
        · intro p hp
          rw [hV] at hp
          rw [hI]
          simp only [List.map_append, List.mem_append]
          rintro (hin | hin)
          · exact hdisj p hp hin
          · simp only [List.map_cons, List.map_nil, List.mem_singleton] at hin
            exact hv p hp (by simp [hin])
      · exact ih st1 st' h' hnd' (fun p hp => hvtail p (hV ▸ hp))
          (fun p hp => hitail p (hI ▸ hp))
          (fun p hp => hI ▸ hdisj p (hV ▸ hp))
      · refine ih st1 st' h' hnd' ?_ (fun p hp => hitail p (hI ▸ hp)) ?_
        · intro p hp
          rw [hV] at hp
          simp only [List.mem_append, List.mem_singleton] at hp
          rcases hp with hp | hp
          · exact hvtail p hp
          · exact hp ▸ hfresh
        · intro p hp
          rw [hV] at hp
          rw [hI]
          simp only [List.mem_append, List.mem_singleton] at hp
          rcases hp with hp | hp
          · exact hdisj p hp
          · intro hin
            exact hi p hin (by simp [hp])

/-- C7 (amended): in a report produced by one validation pass over an
archive whose entry names are distinct, every path appears in at most
one of the valid and invalid sequences.  (With duplicate entry names the
same path can appear in both, see the counterexample.) -/
theorem valid_invalid_disjoint (entries : List ZEntry) (cf : CheckedFiles)
    (hnd : (entries.map ZEntry.Name).Nodup)
    (h : checkZipEntries entries = some cf) :
    ∀ p, p ∈ cf.Valid → p ∉ cf.Invalid.map Prod.fst := by
  unfold checkZipEntries at h
  cases hsc : scanList ⟨{}, [], 0⟩ entries with
  | none => rw [hsc] at h; exact absurd h (by simp)
  | some st' =>
    rw [hsc] at h
    simp only [Option.map_some'] at h
    obtain rfl := Option.some.inj h
    exact scanList_disjoint entries ⟨{}, [], 0⟩ st' hsc hnd
      (by intro p hp; simp at hp) (by intro p hp; simp at hp)
      (by intro p hp; simp at hp)

/-- Witness for C7 on a one-entry archive. -/
theorem valid_invalid_disjoint_witness :
    "a" ∉ (CheckedFiles.mk ["a"] [] [] none).Invalid.map Prod.fst :=
  valid_invalid_disjoint [⟨"a", 1⟩] (CheckedFiles.mk ["a"] [] [] none)
    (by decide) rfl "a" (by simp)

/-- Counterexample for C7 as claimed: an archive with two entries named
`a` yields a report in which the path `a` is in `Valid` (from the first
entry) and in `Invalid` (the second entry is a duplicate file), so a
path can appear in both sequences. -/
theorem valid_invalid_disjoint_cex :
    checkZipEntries [⟨"a", 1⟩, ⟨"a", 1⟩] =
      some (CheckedFiles.mk ["a"] [] [("a", GoErr.multipleEntries "a")] none) ∧
    "a" ∈ ["a"] ∧
    "a" ∈ [("a", GoErr.multipleEntries "a")].map Prod.fst :=
  ⟨rfl, by simp, by simp⟩

/-- A recorded size error survives one loop iteration. -/
theorem scanEntry_sizeerr_mono (st : ScanState) (zf : ZEntry) (st1 : ScanState)
    (h : scanEntry st zf = some st1) (e : GoErr) (he : st.cf.SizeError = some e) :
    st1.cf.SizeError = some e := by
  rcases scanEntry_cases st zf st1 h with
    ⟨_, _, _, hs, _⟩ | ⟨_, _, _, hs, _⟩ | ⟨_, _, _, ⟨_, _, hs, _⟩ | ⟨_, hs, _⟩⟩
  · rw [hs, he]
  · rw [hs, he]
  · rw [hs, he]
  · rw [hs, he]; simp

/-- A recorded size error survives the rest of the loop. -/
theorem scanList_sizeerr_mono : ∀ (es : List ZEntry) (st st' : ScanState),
    scanList st es = some st' → ∀ e, st.cf.SizeError = some e →
    st'.cf.SizeError = some e := by
  intro es
  induction es with
  | nil => intro st st' h e he; obtain rfl := Option.some.inj h; exact he
  | cons zf rest ih =>
    intro st st' h e he
    simp only [scanList] at h
    cases hstep : scanEntry st zf with
    | none => rw [hstep] at h; exact absurd h (by simp)
    | some st1 =>
      rw [hstep] at h
      exact ih st1 st' h e (scanEntry_sizeerr_mono st zf st1 hstep e he)

/-- One loop iteration only appends to the invalid list. -/
theorem scanEntry_invalid_mono (st : ScanState) (zf : ZEntry) (st1 : ScanState)
    (h : scanEntry st zf = some st1) :
    ∃ l, st1.cf.Invalid = st.cf.Invalid ++ l := by
  rcases scanEntry_cases st zf st1 h with
    ⟨e, _, hi, _, _⟩ | ⟨_, _, hi, _, _⟩ | ⟨_, _, hi, _⟩
  · exact ⟨[(zf.Name, e)], hi⟩
  · exact ⟨[], by rw [hi, List.append_nil]⟩
  · exact ⟨[], by rw [hi, List.append_nil]⟩

/-- The loop only appends to the invalid list. -/
theorem scanList_invalid_mono : ∀ (es : List ZEntry) (st st' : ScanState),
    scanList st es = some st' → ∃ l, st'.cf.Invalid = st.cf.Invalid ++ l := by
  intro es
  induction es with
  | nil =>
    intro st st' h
    obtain rfl := Option.some.inj h
    exact ⟨[], by rw [List.append_nil]⟩
  | cons zf rest ih =>
    intro st st' h
    simp only [scanList] at h
    cases hstep : scanEntry st zf with
    | none => rw [hstep] at h; exact absurd h (by simp)
    | some st1 =>
      rw [hstep] at h
      obtain ⟨l1, hl1⟩ := scanEntry_invalid_mono st zf st1 hstep
      obtain ⟨l2, hl2⟩ := ih st1 st' h
      exact ⟨l1 ++ l2, by rw [hl2, hl1, List.append_assoc]⟩

/-- The running total never exceeds the budget. -/
theorem scanList_size_bound : ∀ (es : List ZEntry) (st st' : ScanState),
    scanList st es = some st' → st.size ≤ MaxZipFile → st'.size ≤ MaxZipFile := by
  intro es
  induction es with
  | nil => intro st st' h hle; obtain rfl := Option.some.inj h; exact hle
  | cons zf rest ih =>
    intro st st' h hle
    simp only [scanList] at h
    cases hstep : scanEntry st zf with
    | none => rw [hstep] at h; exact absurd h (by simp)
    | some st1 =>
      rw [hstep] at h
      have hle1 : st1.size ≤ MaxZipFile := by
        rcases scanEntry_cases st zf st1 hstep with
          ⟨_, _, _, _, hs⟩ | ⟨_, _, _, _, hs⟩ | ⟨_, _, _, ⟨_, hb, _, hs⟩ | ⟨_, _, hs⟩⟩
        · rw [hs]; exact hle
        · rw [hs]; exact hle
        · rw [hs]; omega
        · rw [hs]; exact hle
      exact ih st1 st' h hle1

/-- When the loop records no invalid entry and ends without a size
error, the final total is the initial total plus the declared sizes of
all file entries. -/
theorem scanList_accounting : ∀ (es : List ZEntry) (st st' : ScanState),
    scanList st es = some st' →
    st'.cf.Invalid = st.cf.Invalid → st'.cf.SizeError = none →
    st'.size = st.size + sumSizes es := by
  intro es
  induction es with
  | nil =>
    intro st st' h _ _
    obtain rfl := Option.some.inj h
    simp [sumSizes]
  | cons zf rest ih =>
    intro st st' h hInv hse
    simp only [scanList] at h
    cases hstep : scanEntry st zf with
    | none => rw [hstep] at h; exact absurd h (by simp)
    | some st1 =>
      rw [hstep] at h
      obtain ⟨l1, hl1⟩ := scanEntry_invalid_mono st zf st1 hstep
      obtain ⟨l2, hl2⟩ := scanList_invalid_mono rest st1 st' h
      have hlen : l1 = [] ∧ l2 = [] := by
        have hlen0 := congrArg List.length (hInv.symm.trans (by
          rw [hl2, hl1, List.append_assoc]))
        simp only [List.length_append] at hlen0
        exact ⟨List.length_eq_zero.mp (by omega), List.length_eq_zero.mp (by omega)⟩
      have hInv1 : st1.cf.Invalid = st.cf.Invalid := by
        rw [hl1, hlen.1, List.append_nil]
      have hInv2 : st'.cf.Invalid = st1.cf.Invalid := by
        rw [hl2, hlen.2, List.append_nil]
      have hse1 : st1.cf.SizeError = none := by
        cases hy : st1.cf.SizeError with
        | none => rfl
        | some e => rw [scanList_sizeerr_mono rest st1 st' h e hy] at hse; cases hse
      have hrec := ih st1 st' h hInv2 hse
      rcases scanEntry_cases st zf st1 hstep with
        ⟨e, _, hi, _, _⟩ | ⟨hd, _, _, _, hs⟩ | ⟨hd, _, _, ⟨_, _, _, hs⟩ | ⟨_, hs, _⟩⟩
      · exfalso
        rw [hInv1] at hi
        have := congrArg List.length hi
        simp at this
      · rw [hrec, hs]
        simp only [sumSizes, hd, if_pos]
        ring
      · rw [hrec, hs]
        have hd' : (zf.Name.data.getLast? = some '/') = False := eq_false hd
        simp only [sumSizes, hd', if_false]
        ring
      · rw [hs] at hse1
        cases hse1

/-- C6: size enforcement.  A file entry that reaches the size gate (its
name is validated and collision-free) is appended to `Valid` in every
case; the declared size is added to the running total exactly when it is
non-negative (as an int64) and the new total stays within the budget;
otherwise the size error is recorded only if none was recorded before
(first occurrence wins).  Moreover an archive scanned without invalid
entries whose total declared size exceeds the budget by one byte ends
with the size error recorded, and the report returns it as the failure. -/
theorem size_enforcement_spec :
    (∀ (st : ScanState) (zf : ZEntry) (cc' : CollisionChecker),
      zf.Name.data.getLast? ≠ some '/' →
      pathClean zf.Name = zf.Name →
      checkFilePath zf.Name = none →
      checkF strToFold (zf.Name.data.length + 1) st.cc zf.Name false =
        some (none, cc') →
      ((0 ≤ int64OfUInt64 zf.UncompressedSize64 ∧
          st.size + int64OfUInt64 zf.UncompressedSize64 ≤ MaxZipFile →
        scanEntry st zf = some (ScanState.mk
          (CheckedFiles.mk (st.cf.Valid ++ [zf.Name]) st.cf.Omitted st.cf.Invalid
            st.cf.SizeError) cc'
          (st.size + int64OfUInt64 zf.UncompressedSize64))) ∧
       (¬ (0 ≤ int64OfUInt64 zf.UncompressedSize64 ∧
          st.size + int64OfUInt64 zf.UncompressedSize64 ≤ MaxZipFile) →
        scanEntry st zf = some (ScanState.mk
          (CheckedFiles.mk (st.cf.Valid ++ [zf.Name]) st.cf.Omitted st.cf.Invalid
            (some (st.cf.SizeError.getD (GoErr.totalSizeTooLarge MaxZipFile)))) cc'
          st.size)))) ∧
    (∀ (entries : List ZEntry) (cf : CheckedFiles),
      checkZipEntries entries = some cf → cf.Invalid = [] →
      sumSizes entries = MaxZipFile + 1 →
      cf.SizeError ≠ none ∧ cf.Err = cf.SizeError) := by
  constructor
  · intro st zf cc' hdir hclean hcf hchk
    have hsz : (0 ≤ int64OfUInt64 zf.UncompressedSize64 ∧
        MaxZipFile - st.size ≥ int64OfUInt64 zf.UncompressedSize64) ↔
        (0 ≤ int64OfUInt64 zf.UncompressedSize64 ∧
        st.size + int64OfUInt64 zf.UncompressedSize64 ≤ MaxZipFile) := by
      omega
    constructor
    · intro hcond
      simp only [scanEntry, hdir, if_false, decide_False]
      rw [if_neg fun hh => hh hclean]
      simp only [hcf, hchk]
      rw [if_pos (hsz.mpr hcond)]
      rfl
    · intro hcond
      simp only [scanEntry, hdir, if_false, decide_False]
      rw [if_neg fun hh => hh hclean]
      simp only [hcf, hchk]
      rw [if_neg fun hc => hcond (hsz.mp hc)]
      cases hy : st.cf.SizeError with
      | none => rfl
      | some e => simp [addValid, hy]
  · intro entries cf h hInv hsum
    unfold checkZipEntries at h
    cases hsc : scanList ⟨{}, [], 0⟩ entries with
    | none => rw [hsc] at h; exact absurd h (by simp)
    | some st' =>
      rw [hsc] at h
      simp only [Option.map_some'] at h
      obtain rfl := Option.some.inj h
      cases hse : st'.cf.SizeError with
      | some e =>
        constructor
        · simp
        · simp [CheckedFiles.Err, hse]
      | none =>
        exfalso
        have hb : st'.size ≤ MaxZipFile :=
          scanList_size_bound entries ⟨{}, [], 0⟩ st' hsc (by norm_num [MaxZipFile])
        have ha := scanList_accounting entries ⟨{}, [], 0⟩ st' hsc (by simpa using hInv)
          hse
        rw [hsum] at ha
        simp only at ha
        omega

/-- Witness for C6: a single valid file entry one byte over the budget
ends the scan with the size error as the reported failure. -/
theorem size_enforcement_spec_witness :
    (CheckedFiles.mk ["a"] [] [] (some (GoErr.totalSizeTooLarge MaxZipFile))).SizeError ≠
      none ∧
    (CheckedFiles.mk ["a"] [] [] (some (GoErr.totalSizeTooLarge MaxZipFile))).Err =
      (CheckedFiles.mk ["a"] [] [] (some (GoErr.totalSizeTooLarge MaxZipFile))).SizeError :=
  size_enforcement_spec.2 [⟨"a", 524288001⟩]
    (CheckedFiles.mk ["a"] [] [] (some (GoErr.totalSizeTooLarge MaxZipFile)))
    rfl rfl (by decide)

/-- Splitting never yields an empty list of segments. -/
theorem splitSegs_ne_nil : ∀ cs : List Char, splitSegs cs ≠ [] := by
  intro cs
  cases cs with
  | nil => simp [splitSegs]
  | cons c rest =>
    simp only [splitSegs]
    split
    · simp
    · cases splitSegs rest <;> simp

/-- Joining the segments of a string recovers the string. -/
theorem joinSegs_splitSegs : ∀ cs : List Char, joinSegs (splitSegs cs) = cs := by
  intro cs
  induction cs with
  | nil => rfl
  | cons c rest ih =>
    simp only [splitSegs]
    by_cases hc : c = '/'
    · rw [if_pos hc]
      cases hsp : splitSegs rest with
      | nil => exact absurd hsp (splitSegs_ne_nil rest)
      | cons s ss =>
        rw [hsp] at ih
        simp only [joinSegs, hc]
        rw [ih]
        simp
    · rw [if_neg hc]
      cases hsp : splitSegs rest with
      | nil => exact absurd hsp (splitSegs_ne_nil rest)
      | cons s ss =>
        rw [hsp] at ih
        cases ss with
        | nil => simp only [joinSegs] at ih ⊢; rw [ih]
        | cons s2 ss2 =>
          simp only [joinSegs] at ih ⊢
          rw [List.cons_append, ih]

/-- The parent-popping pass is the identity when no `..` segment occurs. -/
theorem cleanAux_no_dotdot : ∀ (segs acc : List (List Char)) (rooted : Bool),
    (∀ s ∈ segs, s ≠ ['.', '.']) → cleanAux rooted segs acc = segs.reverse ++ acc := by
  intro segs
  induction segs with
  | nil => intro acc rooted _; simp [cleanAux]
  | cons s rest ih =>
    intro acc rooted hno
    have hs : s ≠ ['.', '.'] := hno s (by simp)
    simp only [cleanAux, if_neg hs]
    rw [ih (s :: acc) rooted fun t ht => hno t (by simp [ht])]
    simp

/-- A string all of whose segments are non-empty is itself non-empty,
has no leading or trailing separator and no doubled separator. -/
theorem segsNE_scalars : ∀ cs : List Char, (∀ s ∈ splitSegs cs, s ≠ []) →
    cs ≠ [] ∧ cs.head? ≠ some '/' ∧ cs.getLast? ≠ some '/' ∧ hasDD cs = false
  | [] => by intro h; exact absurd (h [] (by simp [splitSegs])) (by simp)
  | [c] => by
    intro h
    by_cases hc : c = '/'
    · subst hc
      exact absurd (h [] (by simp [splitSegs])) (by simp)
    · refine ⟨by simp, by simpa using hc, by simpa using hc, rfl⟩
  | c :: c2 :: cs'' => by
    intro h
    by_cases hc : c = '/'
    · subst hc
      exact absurd (h [] (by simp [splitSegs])) (by simp)
    · by_cases hc2 : c2 = '/'
      · subst hc2
        have hsub : ∀ s ∈ splitSegs cs'', s ≠ [] := by
          intro s hs
          apply h
          have hspc : splitSegs (c :: '/' :: cs'') = [c] :: splitSegs cs'' := by
            simp [splitSegs, if_neg hc]
          rw [hspc]
          exact List.mem_cons_of_mem _ hs
        obtain ⟨hne'', hhead'', hlast'', hdd''⟩ := segsNE_scalars cs'' hsub
        cases cs'' with
        | nil => exact absurd rfl hne''
        | cons c3 cs3 =>
          have hc3 : c3 ≠ '/' := by simpa using hhead''
          refine ⟨by simp, by simpa using hc, ?_, ?_⟩
          · show (c3 :: cs3).getLast? ≠ some '/'
            exact hlast''
          · simp only [hasDD]
            simp [hc, hc3, hdd'']
      · have hrepr : ∃ t ts, splitSegs cs'' = t :: ts := by
          cases hsp2 : splitSegs cs'' with
          | nil => exact absurd hsp2 (splitSegs_ne_nil _)
          | cons t ts => exact ⟨t, ts, rfl⟩
        obtain ⟨t, ts, hsp2⟩ := hrepr
        have hsp : splitSegs (c2 :: cs'') = (c2 :: t) :: ts := by
          simp [splitSegs, if_neg hc2, hsp2]
        have hspc : splitSegs (c :: c2 :: cs'') = (c :: c2 :: t) :: ts := by
          simp [splitSegs, if_neg hc, if_neg hc2, hsp2]
        have hsub : ∀ s ∈ splitSegs (c2 :: cs''), s ≠ [] := by
          intro s hs
          rw [hsp] at hs
          rcases List.mem_cons.mp hs with rfl | hmem
          · simp
          · apply h
            rw [hspc]
            exact List.mem_cons_of_mem _ hmem
        obtain ⟨hne', hhead', hlast', hdd'⟩ := segsNE_scalars (c2 :: cs'') hsub
        refine ⟨by simp, by simpa using hc, ?_, ?_⟩
        · show (c2 :: cs'').getLast? ≠ some '/'
          exact hlast'
        · simp only [hasDD]
          simp [hc, hc2, hdd']

/-- Unpacking of the per-element acceptance predicate. -/
theorem goodElem_facts (s : List Char) (h : goodElem s = true) :
    s ≠ [] ∧ (s.all fun c => c = '.') = false ∧ s.getLast? ≠ some '.' ∧
    (s.all fileNameOK) = true ∧ isBadWindowsName s = false := by
  simp only [goodElem, Bool.and_eq_true, Bool.not_eq_true'] at h
  obtain ⟨⟨⟨⟨h1, h2⟩, h3⟩, h4⟩, h5⟩ := h
  refine ⟨?_, h2, ?_, h4, h5⟩
  · intro he
    subst he
    simp at h1
  · exact of_decide_eq_false h3

/-- The lexical cleaner leaves a fully acceptable name unchanged. -/
theorem clean_id_of_good (cs : List Char) (hg : goodName cs = true) :
    pathCleanL cs = cs := by
  have hall : ∀ s ∈ splitSegs cs, goodElem s = true := by
    simpa [goodName, List.all_eq_true] using hg
  have hne : ∀ s ∈ splitSegs cs, s ≠ [] := fun s hs => (goodElem_facts s (hall s hs)).1
  obtain ⟨hne0, hhead, _, _⟩ := segsNE_scalars cs hne
  have hfilt : ((splitSegs cs).filter fun s => !(s.isEmpty || s = ['.'])) =
      splitSegs cs := by
    refine List.filter_eq_self.mpr fun s hs => ?_
    obtain ⟨h1, h2, _, _, _⟩ := goodElem_facts s (hall s hs)
    have hdot : s ≠ ['.'] := by
      intro he
      subst he
      simp at h2
    simp [h1, hdot]
  have hno : ∀ s ∈ splitSegs cs, s ≠ ['.', '.'] := by
    intro s hs he
    obtain ⟨_, h2, _, _, _⟩ := goodElem_facts s (hall s hs)
    subst he
    simp at h2
  have hout : (splitSegs cs).isEmpty = false := by
    simp [splitSegs_ne_nil cs]
  unfold pathCleanL
  rw [if_neg hne0]
  simp only [hfilt, cleanAux_no_dotdot _ _ _ hno, List.append_nil, List.reverse_reverse]
  rw [if_neg hhead]
  simp only [hout, Bool.false_eq_true, if_false]
  exact joinSegs_splitSegs cs

/-- A path element passes the element check exactly when it is
acceptable. -/
theorem checkElem_none_iff (e : List Char) : checkElem e = none ↔ goodElem e = true := by
  unfold checkElem goodElem
  by_cases h1 : e.isEmpty
  · simp [h1]
  · by_cases h2 : (e.all fun c => c = '.') = true
    · simp [h1, h2]
    · by_cases h3 : e.getLast? = some '.'
      · simp [h1, h2, h3]
      · by_cases h4 : (e.all fileNameOK) = true
        · by_cases h5 : isBadWindowsName e = true
          · simp [h1, h2, h3, h4, h5]
          · simp [h1, h2, h3, h4, h5]
        · simp [h1, h2, h3, h4]

/-- The portable path check passes exactly on acceptable names. -/
theorem checkFilePath_none_iff (s : String) :
    checkFilePath s = none ↔ goodName s.data = true := by
  unfold checkFilePath
  constructor
  · intro h
    split at h
    · cases h
    · split at h
      · cases h
      · split at h
        · cases h
        · cases hfs : (splitSegs s.data).findSome? checkElem with
          | some r => rw [hfs] at h; cases h
          | none =>
            have hall := List.findSome?_eq_none_iff.mp hfs
            simp only [goodName, List.all_eq_true]
            exact fun s hs => (checkElem_none_iff _).mp (hall s hs)
  · intro hg
    have hall : ∀ t ∈ splitSegs s.data, goodElem t = true := by
      simpa [goodName, List.all_eq_true] using hg
    have hne : ∀ t ∈ splitSegs s.data, t ≠ [] :=
      fun t ht => (goodElem_facts t (hall t ht)).1
    obtain ⟨hne0, _, hlast, hdd⟩ := segsNE_scalars s.data hne
    rw [if_neg (by simp [hne0]), if_neg (by simp [hdd]), if_neg hlast]
    rw [List.findSome?_eq_none_iff.mpr fun t ht => (checkElem_none_iff t).mpr (hall t ht)]

/-- C5 (amended): the per-entry name validation accepts a name exactly
when every separator-delimited segment is non-empty (so the name has no
leading, trailing or doubled separator), is not all dots (which covers
the `.` and `..` segments), does not end in a dot, is not a reserved
Windows device name, and uses only characters of the portable safe set.
(The claim as stated omits the empty name, the `.` segment, the
trailing-dot and the reserved-Windows-name rejections, see the
counterexample.) -/
theorem validateName_none_iff (s : String) :
    validateName s = none ↔ goodName s.data = true := by
  unfold validateName
  constructor
  · intro h
    split at h
    · cases h
    · exact (checkFilePath_none_iff s).mp h
  · intro hg
    have hclean : pathClean s = s := by
      show String.mk (pathCleanL s.data) = s
      rw [clean_id_of_good s.data hg]
    rw [if_neg fun hh => hh hclean]
    exact (checkFilePath_none_iff s).mpr hg

/-- Witness for C5: the name `a/b.txt` is accepted. -/
theorem validateName_none_iff_witness : validateName "a/b.txt" = none :=
  (validateName_none_iff "a/b.txt").mpr (by decide)

/-- Counterexample for C5 as claimed: the name `a.` contains no `..`
segment, no leading or redundant separator, and no character outside the
portable safe set, yet the validator rejects it (trailing dot in a path
element). -/
theorem validateName_cex :
    (validateName "a.").isSome = true ∧ specRejectCond "a." = false := by
  decide
